import Mathlib

/-!
Verification development for `scripts/sync-credits.py`: identity resolution,
commit categorization, and maintainer/contributor aggregation.

The Python string primitives are modelled over `String.data` (`List Char`):
`str.strip` / `str.lower` / `str.replace` / `str.rsplit("|", 1)` /
`str.split("|", 2)` / `str.startswith` / `str.endswith` become explicit
list functions.  `str.lower` and the `re.I` flag are modelled on ASCII
(`Char.toLower`), which is exact for all inputs the script manipulates.
-/

/-- Whitespace characters removed by Python `str.strip()` (ASCII range). -/
def isPyWS (c : Char) : Bool :=
  c == ' ' || c == '\t' || c == '\n' || c == '\r' || c == '\x0b' || c == '\x0c'

/-- Model of Python `str.strip()` on the character list. -/
def stripL (cs : List Char) : List Char :=
  ((cs.dropWhile isPyWS).reverse.dropWhile isPyWS).reverse

/-- Model of Python `str.strip()`. -/
def pyStrip (s : String) : String := ⟨stripL s.data⟩

/-- Model of Python `str.lower()` (ASCII case mapping). -/
def lowerStr (s : String) : String := ⟨s.data.map Char.toLower⟩

/-- Split at the first occurrence of `c`: model of `str.split(c, 1)`.
Returns `none` when `c` does not occur. -/
def split1 (c : Char) : List Char → Option (List Char × List Char)
  | [] => none
  | x :: xs =>
    if x = c then some ([], xs)
    else (split1 c xs).map (fun p => (x :: p.1, p.2))

/-- Split at the last occurrence of `c`: model of `str.rsplit(c, 1)`.
Returns `none` when `c` does not occur. -/
def rsplit1 (c : Char) : List Char → Option (List Char × List Char)
  | [] => none
  | x :: xs =>
    match rsplit1 c xs with
    | some p => some (x :: p.1, p.2)
    | none => if x = c then some ([], xs) else none

/-! Static data of the script. -/

/-- `EXCLUDED_MAINTAINERS` from the script. -/
def EXCLUDED_MAINTAINERS : List String :=
  ["app/clawdinator", "clawdinator", "github-actions", "dependabot"]

/-- `EXCLUDED_CONTRIBUTORS` from the script. -/
def EXCLUDED_CONTRIBUTORS : List String :=
  ["GitHub", "github-actions[bot]", "dependabot[bot]", "clawdinator[bot]",
   "blacksmith-sh[bot]", "google-labs-jules[bot]", "Maude Bot", "Pocket Clawd",
   "Ghost", "Gregor\x27s Bot", "Jarvis", "Jarvis Deploy", "CI", "Ubuntu", "user",
   "Developer", "CLAWDINATOR Bot", "Clawd", "Clawdbot", "Clawdbot Maintainers",
   "Claude Code", "L36 Server", "seans-openclawbot", "therealZpoint-bot",
   "Vultr-Clawd Admin", "hyf0-agent"]

/-- `MIN_MERGES` from the script. -/
def MIN_MERGES : Nat := 2

/-- The literal domain of `GITHUB_NOREPLY_RE` (lower case). -/
def NOREPLY_DOMAIN : List Char := "users.noreply.github.com".data

/-- Behaviour of the optional group `(?:\d+\+)?` of `GITHUB_NOREPLY_RE` on the
part of the email before `@`: the group participates in the match exactly when
the local part starts with a maximal nonempty digit run followed directly by
`+` and at least one further character; `[^@]+` then captures the remainder.
Otherwise the optional group matches the empty string and `[^@]+` captures the
whole local part. (`\d` is modelled on ASCII digits.) -/
def stripNumPlus (p : List Char) : List Char :=
  match p.takeWhile Char.isDigit, p.dropWhile Char.isDigit with
  | _ :: _, '+' :: r :: rs => r :: rs
  | _, _ => p

/-- Model of `extract_github_username`: `GITHUB_NOREPLY_RE.match(email)` with
`re.I`, returning `match.group(1).lower()` on success.  The regex is
`^(?:\d+\+)?([^@]+)@users\.noreply\.github\.com$`: `[^@]+` forces the split at
the first `@`; the unanchored `$` of the Python engine also matches just
before a single newline at the very end of the string, hence the second
disjunct on the tail. -/
def extractL (cs : List Char) : Option (List Char) :=
  match split1 '@' cs with
  | none => none
  | some (localPart, tail) =>
    if localPart = [] then none
    else
      let t := tail.map Char.toLower
      if t = NOREPLY_DOMAIN ∨ t = NOREPLY_DOMAIN ++ ['\n'] then
        some ((stripNumPlus localPart).map Char.toLower)
      else none

/-- Model of `extract_github_username` (wrapper over `extractL`). -/
def extract_github_username (email : String) : Option String :=
  (extractL email.data).map (fun cs => ⟨cs⟩)

/-- Model of `sanitize_name`: remove `{` and `}` then strip whitespace. -/
def sanitize_name (name : String) : String :=
  pyStrip ⟨name.data.filter (fun c => c != '{' && c != '}')⟩

/-! Commit categorizer. -/

/-- CI bucket test of `categorize_commit_files` (on the already lower-cased
path): `f_lower.startswith(".github/") or f_lower.startswith("scripts/ci")`. -/
def isCIPath (f : String) : Bool :=
  ".github/".data.isPrefixOf (lowerStr f).data ||
    "scripts/ci".data.isPrefixOf (lowerStr f).data

/-- Docs bucket test of `categorize_commit_files`:
`f_lower.startswith("docs/") or f_lower.endswith(".md")`. -/
def isDocsPath (f : String) : Bool :=
  "docs/".data.isPrefixOf (lowerStr f).data ||
    ".md".data.isSuffixOf (lowerStr f).data

/-- One iteration of the flag loop of `categorize_commit_files`; the state is
`(has_ci, has_docs, has_other)`. -/
def categorizeStep (s : Bool × Bool × Bool) (f : String) : Bool × Bool × Bool :=
  if isCIPath f then (true, s.2.1, s.2.2)
  else if isDocsPath f then (s.1, true, s.2.2)
  else (s.1, s.2.1, true)

/-- Model of `categorize_commit_files`.  Return values are the script's
strings: `"ci"` (CI), `"docs"` (DOCS_MIXED), `"docs only"` (DOCS_ONLY),
`"other"` (OTHER). -/
def categorize_commit_files (files : List String) : String :=
  let flags := files.foldl categorizeStep (false, false, false)
  if flags.1 then "ci"
  else if flags.2.2 then (if flags.2.1 then "docs" else "other")
  else if flags.2.1 then "docs only"
  else "other"

/-! Association lists model the Python dicts (insertion-ordered, unique keys). -/

/-- First-match lookup in an association list (Python `d.get(k)`). -/
def lookupA {β : Type} (m : List (String × β)) (k : String) : Option β :=
  match m with
  | [] => none
  | (k', v) :: rest => if k' = k then some v else lookupA rest k

/-- Model of `d[k] = d.get(k, 0) + 1` on an insertion-ordered dict. -/
def bump (m : List (String × Nat)) (k : String) : List (String × Nat) :=
  match m with
  | [] => [(k, 1)]
  | (k', v) :: rest => if k' = k then (k', v + 1) :: rest else (k', v) :: bump rest k

/-- Model of `s.add(u)` on a Python set, observed only through membership. -/
def insertIfAbsent (s : List String) (u : String) : List String :=
  if u ∈ s then s else s ++ [u]

/-! Contributor aggregator (`get_contributors`). -/

/-- Line parsing shared by both passes of `get_contributors`:
`line.strip()`, skip when empty or without `|`, `rsplit("|", 1)`, then
`name.strip()` and `email.strip().lower()`. -/
def parseContribLine (line : String) : Option (String × String) :=
  (rsplit1 '|' (pyStrip line).data).map
    (fun p => (pyStrip ⟨p.1⟩, lowerStr (pyStrip ⟨p.2⟩)))

/-- Pass 1 of `get_contributors`: one line of the `known_github_users` loop
(the author name is ignored; only the email is inspected). -/
def pass1Step (known : List String) (line : String) : List String :=
  match parseContribLine line with
  | none => known
  | some (_, email) =>
    if email = "" then known
    else
      match extract_github_username email with
      | some u => insertIfAbsent known u
      | none => known

/-- Pass 1 of `get_contributors`: collect `known_github_users`. -/
def contribPass1 (lines : List String) : List String :=
  lines.foldl pass1Step []

/-- Pass-2 admission checks of `get_contributors`: returns
`(sanitized name, email)` for a line that is counted, `none` for a skipped
line.  The blocklist test is on the stripped raw name, before
`sanitize_name`. -/
def acceptedContrib (line : String) : Option (String × String) :=
  match parseContribLine line with
  | none => none
  | some (name, email) =>
    if name = "" ∨ email = "" ∨ name ∈ EXCLUDED_CONTRIBUTORS then none
    else
      let s := sanitize_name name
      if s = "" then none else some (s, email)

/-- Key computation of pass 2 of `get_contributors`. -/
def contribKey (known : List String) (sanitized email : String) : String :=
  match extract_github_username email with
  | some u => "gh:" ++ u
  | none =>
    if lowerStr sanitized ∈ known then "gh:" ++ lowerStr sanitized
    else "name:" ++ lowerStr sanitized

/-- Model of `sanitized[0].isupper()`; every stored name is nonempty. -/
def isUpperFirst (s : String) : Bool :=
  match s.data with
  | [] => false
  | ch :: _ => ch.isUpper

/-- Display-name preference of `get_contributors`: the candidate `s` replaces
the stored name `c` when its first character is upper case and `c`'s is not,
or when the case-ness agrees and `s` is strictly longer. -/
def better (s c : String) : Prop :=
  (isUpperFirst s = true ∧ isUpperFirst c = false) ∨
    (isUpperFirst s = isUpperFirst c ∧ c.length < s.length)

instance : DecidableRel better := fun s c => by
  unfold better; exact inferInstance

/-- Replace the value stored at `k` (dict assignment to an existing key). -/
def setA (m : List (String × String)) (k v : String) : List (String × String) :=
  match m with
  | [] => []
  | (k', v') :: rest => if k' = k then (k', v) :: rest else (k', v') :: setA rest k v

/-- Update of the `canonical` dict for one counted actor. -/
def updCanon (m : List (String × String)) (key s : String) : List (String × String) :=
  match lookupA m key with
  | none => m ++ [(key, s)]
  | some c => if better s c then setA m key s else m

/-- State of pass 2 of `get_contributors`: the `counts` and `canonical` dicts. -/
structure CState where
  counts : List (String × Nat)
  canonical : List (String × String)
deriving DecidableEq

/-- One line of pass 2 of `get_contributors`. -/
def contribStep (known : List String) (st : CState) (line : String) : CState :=
  match acceptedContrib line with
  | none => st
  | some (s, email) =>
    let key := contribKey known s email
    ⟨bump st.counts key, updCanon st.canonical key s⟩

/-- Sort order of the contributor list: count descending, then display name
ascending case-insensitively (Python key `(-count, name.lower())`). -/
def contribLE (a b : String × Nat) : Prop :=
  b.2 < a.2 ∨ (a.2 = b.2 ∧ lowerStr a.1 ≤ lowerStr b.1)

instance : DecidableRel contribLE := fun a b => by
  unfold contribLE; exact inferInstance

/-- Model of `get_contributors` on the lines of the `git log` output. -/
def get_contributors (lines : List String) : List (String × Nat) :=
  let known := contribPass1 lines
  let st := lines.foldl (contribStep known) ⟨[], []⟩
  let contributors :=
    st.counts.filterMap (fun p => (lookupA st.canonical p.1).map (fun n => (n, p.2)))
  List.insertionSort contribLE contributors

/-! Maintainer aggregator (`get_maintainers`). -/

/-- The per-identity push tally: the dict
`{"ci": N, "docs only": N, "docs": N, "other": N}`. -/
structure Tally where
  ci : Nat
  docsOnly : Nat
  docsMixed : Nat
  other : Nat
deriving DecidableEq

/-- The zero tally (fresh `push_counts` entry, and the default on lookup). -/
def zeroTally : Tally := ⟨0, 0, 0, 0⟩

/-- Model of `push_counts[key][category] += 1` on one tally, indexed by the
category string returned by `categorize_commit_files`. -/
def incCat (t : Tally) (cat : String) : Tally :=
  if cat = "ci" then { t with ci := t.ci + 1 }
  else if cat = "docs only" then { t with docsOnly := t.docsOnly + 1 }
  else if cat = "docs" then { t with docsMixed := t.docsMixed + 1 }
  else if cat = "other" then { t with other := t.other + 1 }
  else t

/-- Sum of the four counters of a tally (`sum(push_cats.values())`). -/
def sumTally (t : Tally) : Nat := t.ci + t.docsOnly + t.docsMixed + t.other

/-- Create-if-absent then increment for the `push_counts` dict. -/
def bumpTally (m : List (String × Tally)) (k : String) (cat : String) :
    List (String × Tally) :=
  match m with
  | [] => [(k, incCat zeroTally cat)]
  | (k', t) :: rest =>
    if k' = k then (k', incCat t cat) :: rest else (k', t) :: bumpTally rest k cat

/-- State of the direct-push loop of `get_maintainers`:
`current_key`, `current_files`, `push_counts`. -/
structure PushState where
  currentKey : Option String
  currentFiles : List String
  pushCounts : List (String × Tally)
deriving DecidableEq

/-- Model of `flush_commit`: tally the pending commit (only when it has both a
key and at least one file), then reset the pending fields. -/
def flush_commit (st : PushState) : PushState :=
  match st.currentKey with
  | some k =>
    if st.currentFiles ≠ [] then
      ⟨none, [], bumpTally st.pushCounts k (categorize_commit_files st.currentFiles)⟩
    else ⟨none, [], st.pushCounts⟩
  | none => ⟨none, [], st.pushCounts⟩

/-- Marker parsing of the push loop, on the stripped line: `split("|", 2)`
must give three parts; returns `(name.strip(), email.strip().lower())`. -/
def parseMarker (l : String) : Option (String × String) :=
  match split1 '|' l.data with
  | none => none
  | some (_, rest) =>
    match split1 '|' rest with
    | none => none
    | some (n, e) => some (pyStrip ⟨n⟩, lowerStr (pyStrip ⟨e⟩))

/-- Push-identity key of one commit: the GitHub username from the noreply
email when available, else the lower-cased committer name (the simple
fallback, not the two-pass resolver). -/
def pushKeyOf (name email : String) : String :=
  match extract_github_username email with
  | some u => u
  | none => lowerStr name

/-- One line of the direct-push loop of `get_maintainers`. -/
def pushStep (st : PushState) (line : String) : PushState :=
  let l := pyStrip line
  if l = "" then st
  else if "COMMIT|".data.isPrefixOf l.data then
    let st' := flush_commit st
    match parseMarker l with
    | none => st'
    | some (name, email) =>
      if name = "" ∨ name ∈ EXCLUDED_CONTRIBUTORS then { st' with currentKey := none }
      else { st' with currentKey := some (pushKeyOf name email) }
  else
    match st.currentKey with
    | some _ => { st with currentFiles := st.currentFiles ++ [l] }
    | none => st

/-- The whole direct-push loop, final `flush_commit()` included. -/
def runPush (lines : List String) : PushState :=
  flush_commit (lines.foldl pushStep ⟨none, [], []⟩)

/-- Total activity of a maintainer tuple `(login, merges, pushes)`:
`merges + sum(pushes.values())`. -/
def totalActivity (a : String × Nat × Tally) : Nat := a.2.1 + sumTally a.2.2

/-- Sort order of the maintainer list: total activity descending, then login
ascending case-insensitively (Python key `(-(merges+pushes), login.lower())`). -/
def maintLE (a b : String × Nat × Tally) : Prop :=
  totalActivity b < totalActivity a ∨
    (totalActivity a = totalActivity b ∧ lowerStr a.1 ≤ lowerStr b.1)

instance : DecidableRel maintLE := fun a b => by
  unfold maintLE; exact inferInstance

/-- Step 3 of `get_maintainers`: keep the logins with at least `MIN_MERGES`
merges, attach `push_counts.get(login.lower(), zero)`, and sort. -/
def get_maintainers_build (mergeCounts : List (String × Nat))
    (pushCounts : List (String × Tally)) : List (String × Nat × Tally) :=
  let ms := mergeCounts.filterMap (fun p =>
    if MIN_MERGES ≤ p.2 then
      some (p.1, p.2, (lookupA pushCounts (lowerStr p.1)).getD zeroTally)
    else none)
  List.insertionSort maintLE ms

/-! Document splicing (`update_credits`, lines 375-413). -/

/-- Test for a line that ends the skipped region: `line.startswith("## ") or
line.startswith("> ")`. -/
def nextSectionLine (l : String) : Bool :=
  "## ".data.isPrefixOf l.data || "> ".data.isPrefixOf l.data

/-- The line-rewriting loop of `update_credits`, with the rendered maintainer
and contributor sections as parameters.  The `Bool` argument is the
`skip_until_next_section` flag. -/
def spliceLines (ms cs : String) : Bool → List String → List String
  | _, [] => []
  | skip, l :: rest =>
    if l = "## Maintainers" then
      "## Maintainers" :: "" :: ms :: spliceLines ms cs true rest
    else if l = "## Contributors" then
      "" :: "## Contributors" :: "" :: cs :: spliceLines ms cs true rest
    else if skip && nextSectionLine l then
      "" :: l :: spliceLines ms cs false rest
    else if skip then spliceLines ms cs true rest
    else l :: spliceLines ms cs false rest

/-- Model of the document rewrite of `update_credits`:
`content.split("\n")`, the loop, `"\n".join(result)`. -/
def update_credits_content (ms cs content : String) : String :=
  String.intercalate "\n" (spliceLines ms cs false (content.splitOn "\n"))

/-! Claim-side definitions (stated from the specification's words, for
comparison with the source translations above). -/

/-- Decision rule for the commit categorizer as the specification words it:
any CI path gives CI; otherwise any path in neither bucket gives DOCS_MIXED
when some path is in the Docs bucket and OTHER otherwise; otherwise any Docs
path gives DOCS_ONLY; otherwise (the empty list included) OTHER.  Category
names use the script's strings (CI = `"ci"`, DOCS_MIXED = `"docs"`,
DOCS_ONLY = `"docs only"`, OTHER = `"other"`). -/
def categorizeClaim (files : List String) : String :=
  if files.any isCIPath then "ci"
  else if files.any (fun f => !isCIPath f && !isDocsPath f) then
    (if files.any isDocsPath then "docs" else "other")
  else if files.any isDocsPath then "docs only"
  else "other"

/-! Lemmas about the categorizer. -/

/-- The flag loop computes the three `any` tests (with the `elif` shadowing
of the CI test inside the Docs and Other flags). -/
theorem categorize_foldl_eq (files : List String) (a b c : Bool) :
    files.foldl categorizeStep (a, b, c) =
      (a || files.any isCIPath,
       b || files.any (fun f => !isCIPath f && isDocsPath f),
       c || files.any (fun f => !isCIPath f && !isDocsPath f)) := by
  induction files generalizing a b c with
  | nil => simp
  | cons f fs ih =>
    rw [List.foldl_cons, List.any_cons, List.any_cons, List.any_cons]
    by_cases hci : isCIPath f
    · have hstep : categorizeStep (a, b, c) f = (true, b, c) := by
        simp [categorizeStep, hci]
      rw [hstep, ih]
      simp [hci, Bool.or_assoc]
    · by_cases hd : isDocsPath f
      · have hstep : categorizeStep (a, b, c) f = (a, true, c) := by
          simp [categorizeStep, hci, hd]
        rw [hstep, ih]
        simp [hci, hd, Bool.or_assoc]
      · have hstep : categorizeStep (a, b, c) f = (a, b, true) := by
          simp [categorizeStep, hci, hd]
        rw [hstep, ih]
        simp [eq_false_of_ne_true hci, eq_false_of_ne_true hd, Bool.or_assoc]

/-- When no path passes the CI test, the `elif`-shadowed Docs flag agrees with
the plain Docs-bucket test. -/
theorem any_docs_of_no_ci (files : List String) (h : files.any isCIPath = false) :
    files.any (fun f => !isCIPath f && isDocsPath f) = files.any isDocsPath := by
  induction files with
  | nil => rfl
  | cons f fs ih =>
    rw [List.any_cons] at h ⊢
    rw [List.any_cons]
    rcases Bool.or_eq_false_iff.mp h with ⟨h1, h2⟩
    rw [ih h2, h1]
    rfl

/-- C2: Commit Categorizer decision rule.  For every finite list of paths, if
any path (case-insensitively) starts with the CI-config directory prefix
`.github/` or the CI-script prefix `scripts/ci`, the result is CI (`"ci"`);
else, if any path is in neither the CI nor the Docs bucket, the result is
DOCS_MIXED (`"docs"`) when some path is also in the Docs bucket (starts with
`docs/` or ends with `.md`) and OTHER (`"other"`) otherwise; else, if any path
is in the Docs bucket, the result is DOCS_ONLY (`"docs only"`); else —
including the empty path list — the result is OTHER. -/
theorem C2_categorizer_decision_rule (files : List String) :
    categorize_commit_files files = categorizeClaim files := by
  unfold categorize_commit_files categorizeClaim
  rw [categorize_foldl_eq]
  by_cases hci : files.any isCIPath
  · simp [hci]
  · have hci' := eq_false_of_ne_true hci
    rw [any_docs_of_no_ci files hci']
    simp [hci']

/-! Lemmas about characters and the username extractor. -/

/-- Converting a valid code point back and forth is the identity. -/
theorem char_toNat_ofNat (n : Nat) (h : n.isValidChar) : (Char.ofNat n).toNat = n := by
  simp [Char.ofNat, h, Char.ofNatAux, Char.toNat, UInt32.toNat]

/-- ASCII lowering maps no character onto the newline. -/
theorem toLower_eq_newline {c : Char} (h : c.toLower = '\n') : c = '\n' := by
  by_cases hc : c.toNat ≥ 65 ∧ c.toNat ≤ 90
  · exfalso
    have hv : (c.toNat + 32).isValidChar := by left; omega
    simp only [Char.toLower] at h
    rw [if_pos hc] at h
    have := congrArg Char.toNat h
    rw [char_toNat_ofNat _ hv] at this
    have h10 : Char.toNat '\n' = 10 := rfl
    omega
  · simp only [Char.toLower] at h
    rwa [if_neg hc] at h

/-- ASCII lowering is idempotent. -/
theorem toLower_idem (c : Char) : c.toLower.toLower = c.toLower := by
  by_cases hc : c.toNat ≥ 65 ∧ c.toNat ≤ 90
  · have hv : (c.toNat + 32).isValidChar := by left; omega
    simp only [Char.toLower]
    rw [if_pos hc, char_toNat_ofNat _ hv]
    have : ¬ (c.toNat + 32 ≥ 65 ∧ c.toNat + 32 ≤ 90) := by omega
    rw [if_neg this]
  · simp only [Char.toLower]
    rw [if_neg hc, if_neg hc]

/-- Unfolding equation of `split1` on a cons cell. -/
theorem split1_cons (c x : Char) (xs : List Char) :
    split1 c (x :: xs) =
      if x = c then some ([], xs)
      else (split1 c xs).map (fun p => (x :: p.1, p.2)) := rfl

/-- A successful first-occurrence split reassembles the list. -/
theorem split1_eq_some {c : Char} : ∀ {l p q : List Char},
    split1 c l = some (p, q) → l = p ++ c :: q := by
  intro l
  induction l with
  | nil => intro p q h; simp [split1] at h
  | cons x xs ih =>
    intro p q h
    rw [split1_cons] at h
    by_cases hx : x = c
    · rw [if_pos hx] at h
      cases h
      simp [hx]
    · rw [if_neg hx] at h
      cases hs : split1 c xs with
      | none => rw [hs] at h; simp at h
      | some val =>
        obtain ⟨pp, qq⟩ := val
        rw [hs] at h
        simp only [Option.map_some', Option.some.injEq, Prod.mk.injEq] at h
        obtain ⟨h1, h2⟩ := h
        subst h1
        subst h2
        rw [ih hs]
        rfl

/-- Appending one non-separator character extends the tail of the split. -/
theorem split1_append_last {c a : Char} (ha : a ≠ c) : ∀ (l : List Char),
    split1 c (l ++ [a]) = (split1 c l).map (fun p => (p.1, p.2 ++ [a])) := by
  intro l
  induction l with
  | nil =>
    simp [split1, split1_cons, ha]
  | cons x xs ih =>
    rw [List.cons_append, split1_cons, split1_cons]
    by_cases hx : x = c
    · simp [hx]
    · rw [if_neg hx, if_neg hx, ih]
      cases split1 c xs <;> simp

/-- Claim-side extractor, following the specification's words: the pattern is
anchored on the full string (`$` read as strict end-of-string), matched
case-insensitively, and the captured username segment is returned
lower-cased. -/
def extractClaimL (cs : List Char) : Option (List Char) :=
  match split1 '@' cs with
  | none => none
  | some (localPart, tail) =>
    if localPart = [] then none
    else if tail.map Char.toLower = NOREPLY_DOMAIN then
      some ((stripNumPlus localPart).map Char.toLower)
    else none

/-- Claim-side extractor on strings. -/
def extractClaim (email : String) : Option String :=
  (extractClaimL email.data).map (fun cs => ⟨cs⟩)

/-- Removal of one trailing newline, when present. -/
def dropLastNL (cs : List Char) : List Char :=
  match cs.getLast? with
  | some c => if c = '\n' then cs.dropLast else cs
  | none => cs

/-- Removal of one trailing newline, on strings. -/
def dropTrailingNL (s : String) : String := ⟨dropLastNL s.data⟩

/-- The observed extractor equals the strict full-string matcher applied
after removing at most one trailing newline. -/
theorem extractL_eq_claim (cs : List Char) :
    extractL cs = extractClaimL (dropLastNL cs) := by
  cases hlast : cs.getLast? with
  | none =>
    have h0 : cs = [] := List.getLast?_eq_none_iff.mp hlast
    subst h0
    rfl
  | some a =>
    by_cases ha : a = '\n'
    · subst ha
      have hdec : cs.dropLast ++ ['\n'] = cs := List.dropLast_append_getLast? _ hlast
      have hd : dropLastNL cs = cs.dropLast := by
        unfold dropLastNL
        rw [hlast]
        dsimp only
        rw [if_pos rfl]
      rw [hd]
      have h1 : split1 '@' cs =
          (split1 '@' cs.dropLast).map (fun p => (p.1, p.2 ++ ['\n'])) := by
        conv_lhs => rw [← hdec]
        exact split1_append_last (by decide) cs.dropLast
      unfold extractL extractClaimL
      rw [h1]
      cases hs : split1 '@' cs.dropLast with
      | none => rfl
      | some pq =>
        obtain ⟨p, q⟩ := pq
        simp only [Option.map_some']
        by_cases hp : p = []
        · rw [if_pos hp, if_pos hp]
        · rw [if_neg hp, if_neg hp]
          have hmap : (q ++ ['\n']).map Char.toLower = q.map Char.toLower ++ ['\n'] := by
            simp
          have hne : ¬ (q ++ ['\n']).map Char.toLower = NOREPLY_DOMAIN := by
            rw [hmap]
            intro hcon
            have hgl := congrArg List.getLast? hcon
            rw [List.getLast?_concat] at hgl
            have hdm : NOREPLY_DOMAIN.getLast? = some 'm' := by decide
            rw [hdm] at hgl
            exact absurd (Option.some.inj hgl) (by decide)
          by_cases hq : q.map Char.toLower = NOREPLY_DOMAIN
          · have hqn : (q ++ ['\n']).map Char.toLower = NOREPLY_DOMAIN ++ ['\n'] := by
              rw [hmap, hq]
            rw [if_pos (Or.inr hqn), if_pos hq]
          · have hcond : ¬ ((q ++ ['\n']).map Char.toLower = NOREPLY_DOMAIN ∨
                (q ++ ['\n']).map Char.toLower = NOREPLY_DOMAIN ++ ['\n']) := by
              rintro (hcon | hcon)
              · exact hne hcon
              · rw [hmap] at hcon
                exact hq (List.append_cancel_right hcon)
            rw [if_neg hcond, if_neg hq]
    · have hd : dropLastNL cs = cs := by
        unfold dropLastNL
        rw [hlast]
        dsimp only
        rw [if_neg ha]
      rw [hd]
      unfold extractL extractClaimL
      cases hs : split1 '@' cs with
      | none => rfl
      | some pq =>
        obtain ⟨p, q⟩ := pq
        dsimp only
        by_cases hp : p = []
        · rw [if_pos hp, if_pos hp]
        · rw [if_neg hp, if_neg hp]
          have hqne : ¬ q.map Char.toLower = NOREPLY_DOMAIN ++ ['\n'] := by
            intro hcon
            have hq0 : q ≠ [] := by
              intro h0
              rw [h0] at hcon
              exact absurd hcon.symm (by decide)
            have hgl := congrArg List.getLast? hcon
            rw [List.getLast?_concat, List.getLast?_map] at hgl
            cases hql : q.getLast? with
            | none => exact hq0 (List.getLast?_eq_none_iff.mp hql)
            | some b =>
              rw [hql] at hgl
              simp only [Option.map_some', Option.some.injEq] at hgl
              have hb : b = '\n' := toLower_eq_newline hgl
              have hcs : cs = p ++ '@' :: q := split1_eq_some hs
              have hgcs : cs.getLast? = some b := by
                rw [hcs, show p ++ '@' :: q = (p ++ ['@']) ++ q by simp,
                  List.getLast?_append_of_ne_nil _ hq0]
                exact hql
              rw [hgcs] at hlast
              exact ha ((Option.some.inj hlast).symm ▸ hb)
          by_cases hq : q.map Char.toLower = NOREPLY_DOMAIN
          · rw [if_pos (Or.inl hq), if_pos hq]
          · have hcond : ¬ (q.map Char.toLower = NOREPLY_DOMAIN ∨
                q.map Char.toLower = NOREPLY_DOMAIN ++ ['\n']) := by
              rintro (hcon | hcon)
              · exact hq hcon
              · exact hqne hcon
            rw [if_neg hcond, if_neg hq]

/-- C5 counterexample: the extractor does accept one string that does not
match the pattern anchored on the full email string — an email carrying a
single trailing newline — because the host regex engine's `$` also matches
just before a terminal newline.  The claim's "returns nothing for any email
not matching" is therefore false as stated. -/
theorem C5_counterexample_trailing_newline :
    extract_github_username "bob@users.noreply.github.com\n" = some "bob" ∧
      extractClaim "bob@users.noreply.github.com\n" = none := by
  constructor <;> rfl

/-- C5 (amended): extraction matches the pattern
`^(\d+\+)?([^@]+)@users\.noreply\.github\.com$` case-insensitively against
the full string after removing at most one trailing newline (the engine's
`$` also matches just before a terminal newline), returning the captured
username segment lower-cased, and nothing otherwise; `123+alice@...` yields
`"alice"` and `bob@...` yields `"bob"`. -/
theorem C5_extractor_amended :
    (∀ email : String,
        extract_github_username email = extractClaim (dropTrailingNL email)) ∧
      extract_github_username "123+alice@users.noreply.github.com" = some "alice" ∧
      extract_github_username "bob@users.noreply.github.com" = some "bob" := by
  refine ⟨?_, rfl, rfl⟩
  intro email
  unfold extract_github_username extractClaim dropTrailingNL
  rw [extractL_eq_claim]

/-! Lemmas about pass 1 of the contributor resolver. -/

/-- Membership in a model set after `add`. -/
theorem mem_insertIfAbsent (s : List String) (u x : String) :
    x ∈ insertIfAbsent s u ↔ x ∈ s ∨ x = u := by
  unfold insertIfAbsent
  by_cases hu : u ∈ s
  · rw [if_pos hu]
    constructor
    · exact Or.inl
    · rintro (h | rfl)
      · exact h
      · exact hu
  · rw [if_neg hu]
    simp

/-- Membership after one step of pass 1. -/
theorem mem_pass1Step (known : List String) (line u : String) :
    u ∈ pass1Step known line ↔
      u ∈ known ∨ ∃ name email : String,
        parseContribLine line = some (name, email) ∧ email ≠ "" ∧
          extract_github_username email = some u := by
  unfold pass1Step
  cases hp : parseContribLine line with
  | none => simp [hp]
  | some ne =>
    obtain ⟨n, e⟩ := ne
    dsimp only
    by_cases he : e = ""
    · rw [if_pos he]
      simp only [hp, Option.some.injEq, Prod.mk.injEq]
      constructor
      · exact Or.inl
      · rintro (h | ⟨n', e', ⟨rfl, rfl⟩, he', _⟩)
        · exact h
        · exact absurd he he'
    · rw [if_neg he]
      cases hx : extract_github_username e with
      | none =>
        simp only [hp, Option.some.injEq, Prod.mk.injEq]
        constructor
        · exact Or.inl
        · rintro (h | ⟨n', e', ⟨rfl, rfl⟩, _, hx'⟩)
          · exact h
          · rw [hx] at hx'; exact absurd hx' (by simp)
      | some v =>
        rw [mem_insertIfAbsent]
        simp only [hp, Option.some.injEq, Prod.mk.injEq]
        constructor
        · rintro (h | rfl)
          · exact Or.inl h
          · exact Or.inr ⟨n, e, ⟨rfl, rfl⟩, he, hx⟩
        · rintro (h | ⟨n', e', ⟨rfl, rfl⟩, _, hx'⟩)
          · exact Or.inl h
          · rw [hx] at hx'
            exact Or.inr (Option.some.inj hx').symm

/-- Membership in the result of the pass-1 fold. -/
theorem mem_pass1_foldl (lines : List String) (acc : List String) (u : String) :
    u ∈ lines.foldl pass1Step acc ↔
      u ∈ acc ∨ ∃ line ∈ lines, ∃ name email : String,
        parseContribLine line = some (name, email) ∧ email ≠ "" ∧
          extract_github_username email = some u := by
  induction lines generalizing acc with
  | nil => simp
  | cons l ls ih =>
    rw [List.foldl_cons, ih, mem_pass1Step]
    constructor
    · rintro ((h | h) | ⟨line, hm, h⟩)
      · exact Or.inl h
      · exact Or.inr ⟨l, List.mem_cons_self .., h⟩
      · exact Or.inr ⟨line, List.mem_cons_of_mem _ hm, h⟩
    · rintro (h | ⟨line, hm, h⟩)
      · exact Or.inl (Or.inl h)
      · rcases List.mem_cons.mp hm with rfl | hm'
        · exact Or.inl (Or.inr h)
        · exact Or.inr ⟨line, hm', h⟩

/-- C1: Identity Resolver key assignment.  For every actor record counted in
pass 2, the key bumped in the counts dict is `gh:<username>` when the
lower-cased email yields a GitHub username, else `gh:<sanitized-name-lower>`
when the sanitized display name lower-cased is in the known-usernames set,
else `name:<sanitized-name-lower>`; and the known-usernames set collected by
pass 1 contains exactly the usernames extractable from the emails of the
dataset's records — with no condition on the display name, so blocklisted
actors contribute their emails too. -/
theorem C1_key_assignment :
    (∀ (known : List String) (st : CState) (line name email : String),
        parseContribLine line = some (name, email) →
        name ≠ "" → email ≠ "" → name ∉ EXCLUDED_CONTRIBUTORS →
        sanitize_name name ≠ "" →
        (contribStep known st line).counts =
          bump st.counts
            (match extract_github_username email with
             | some u => "gh:" ++ u
             | none =>
               if lowerStr (sanitize_name name) ∈ known then
                 "gh:" ++ lowerStr (sanitize_name name)
               else "name:" ++ lowerStr (sanitize_name name))) ∧
      (∀ (lines : List String) (u : String),
        u ∈ contribPass1 lines ↔
          ∃ line ∈ lines, ∃ name email : String,
            parseContribLine line = some (name, email) ∧ email ≠ "" ∧
              extract_github_username email = some u) := by
  constructor
  · intro known st line name email hp hn he hb hs
    unfold contribStep acceptedContrib contribKey
    rw [hp]
    dsimp only
    have hcond : ¬ (name = "" ∨ email = "" ∨ name ∈ EXCLUDED_CONTRIBUTORS) := by
      rintro (h | h | h)
      · exact hn h
      · exact he h
      · exact hb h
    rw [if_neg hcond, if_neg hs]
  · intro lines u
    unfold contribPass1
    rw [mem_pass1_foldl]
    simp

/-- Witness for C1 at a concrete record: the author name `"Alice"` with a
non-noreply email and a known username `"alice"` resolves to key
`"gh:alice"`. -/
theorem C1_witness :
    (contribStep ["alice"] ⟨[], []⟩ "Alice|alice@company.example").counts =
      [("gh:alice", 1)] := by
  have h := C1_key_assignment.1 ["alice"] ⟨[], []⟩ "Alice|alice@company.example"
    "Alice" "alice@company.example" (by decide) (by decide) (by decide)
    (by decide) (by decide)
  rw [h]
  rfl

/-! Lemmas about pass 2 of the contributor resolver. -/

/-- Incrementing a counts dict always changes it. -/
theorem bump_ne (m : List (String × Nat)) (k : String) : bump m k ≠ m := by
  induction m with
  | nil => intro h; exact absurd h (by simp [bump])
  | cons p rest ih =>
    obtain ⟨k', v⟩ := p
    unfold bump
    by_cases hk : k' = k
    · rw [if_pos hk]
      intro h
      have := (List.cons.injEq .. ▸ h).1
      have := (Prod.mk.injEq .. ▸ this).2
      omega
    · rw [if_neg hk]
      intro h
      exact ih (List.cons.injEq .. ▸ h).2

/-- C3 counterexample: an actor record whose sanitized display name is on the
contributor blocklist is *not* skipped when the raw name differs from every
blocklist entry — here braces around the listed name `"GitHub"` defeat the
test, because the code compares the stripped raw name before sanitization.
Its commit is counted, contradicting the claimed skip rule. -/
theorem C3_counterexample_braced_blocklist_name :
    sanitize_name "{GitHub}" = "GitHub" ∧
      "GitHub" ∈ EXCLUDED_CONTRIBUTORS ∧
      (contribStep [] ⟨[], []⟩ "{GitHub}|x@example.com").counts =
        [("name:github", 1)] := by
  refine ⟨rfl, by decide, rfl⟩

/-- C3 (amended): an actor record is skipped if and only if it fails the
admission checks of pass 2 — no `|` delimiter, empty stripped name, empty
stripped email, stripped *raw* display name on the contributor blocklist
(compared exactly, before brace sanitization), or name empty after
sanitization.  Every skipped actor leaves the state untouched, so an actor
named `"github-actions[bot]"` contributes zero commits to the contributor
output regardless of how many commits it authored. -/
theorem C3_skip_rule_amended :
    (∀ (known : List String) (st : CState) (line : String),
        contribStep known st line = st ↔
          ¬ ∃ name email : String,
              parseContribLine line = some (name, email) ∧
                ¬ (name = "" ∨ email = "" ∨ name ∈ EXCLUDED_CONTRIBUTORS) ∧
                sanitize_name name ≠ "") ∧
      (∀ k : Nat,
        get_contributors (List.replicate k
          "github-actions[bot]|41898282+github-actions[bot]@users.noreply.github.com") = []) := by
  constructor
  · intro known st line
    unfold contribStep acceptedContrib
    cases hp : parseContribLine line with
    | none =>
      simp only [hp]
      constructor
      · rintro - ⟨n, e, hpe, -⟩
        exact absurd hpe (by simp)
      · intro h
        trivial
    | some ne =>
      obtain ⟨n, e⟩ := ne
      dsimp only
      by_cases hc : n = "" ∨ e = "" ∨ n ∈ EXCLUDED_CONTRIBUTORS
      · rw [if_pos hc]
        constructor
        · rintro - ⟨n', e', hpe, hc', -⟩
          obtain ⟨rfl, rfl⟩ := Prod.mk.injEq .. ▸ Option.some.inj hpe
          exact hc' hc
        · intro h
          trivial
      · rw [if_neg hc]
        by_cases hs : sanitize_name n = ""
        · rw [if_pos hs]
          constructor
          · rintro - ⟨n', e', hpe, -, hs'⟩
            obtain ⟨rfl, rfl⟩ := Prod.mk.injEq .. ▸ Option.some.inj hpe
            exact hs' hs
          · intro h
            trivial
        · rw [if_neg hs]
          constructor
          · intro h
            exfalso
            have := congrArg CState.counts h
            exact bump_ne st.counts _ this
          · intro h
            exact absurd ⟨n, e, rfl, hc, hs⟩ h
  · intro k
    have hline : ∀ (known : List String) (st : CState),
        contribStep known st
          "github-actions[bot]|41898282+github-actions[bot]@users.noreply.github.com" = st := by
      intro known st
      unfold contribStep
      rw [show acceptedContrib
          "github-actions[bot]|41898282+github-actions[bot]@users.noreply.github.com" = none
        from by decide]
    have hfold : ∀ (known : List String) (st : CState),
        (List.replicate k
          "github-actions[bot]|41898282+github-actions[bot]@users.noreply.github.com").foldl
          (contribStep known) st = st := by
      intro known st
      induction k with
      | zero => rfl
      | succ m ih =>
        rw [List.replicate_succ, List.foldl_cons, hline]
        exact ih
    unfold get_contributors
    dsimp only
    rw [hfold]
    rfl

/-! Conservation of well-formed records (claim-side predicates and sums). -/

/-- A contributor line as the no-data-loss claim words it: it carries the
delimiter and a non-empty display name that is not blocklisted. -/
def claimWellFormedContrib (line : String) : Bool :=
  match parseContribLine line with
  | none => false
  | some (name, _) =>
    !decide (name = "") && !decide (name ∈ EXCLUDED_CONTRIBUTORS)

/-- A contributor line that pass 2 actually counts: delimiter, non-empty
stripped name, non-empty stripped email, raw name not blocklisted, and name
non-empty after sanitization. -/
def wellFormedContrib (line : String) : Bool :=
  match parseContribLine line with
  | none => false
  | some (name, email) =>
    !decide (name = "") && !decide (email = "") &&
      !decide (name ∈ EXCLUDED_CONTRIBUTORS) && !decide (sanitize_name name = "")

/-- Sum of all per-identity commit counts. -/
def sumCounts (m : List (String × Nat)) : Nat := (m.map Prod.snd).sum

/-- Sum of all per-identity push tallies, over all four categories. -/
def sumTallies (m : List (String × Tally)) : Nat := (m.map (fun p => sumTally p.2)).sum

/-- The admission checks of pass 2 succeed exactly on well-formed lines. -/
theorem acceptedContrib_isSome_iff (line : String) :
    (acceptedContrib line).isSome = wellFormedContrib line := by
  unfold acceptedContrib wellFormedContrib
  cases hp : parseContribLine line with
  | none => rfl
  | some ne =>
    obtain ⟨n, e⟩ := ne
    dsimp only
    by_cases hc : n = "" ∨ e = "" ∨ n ∈ EXCLUDED_CONTRIBUTORS
    · rw [if_pos hc]
      rcases hc with h | h | h <;> simp [h]
    · push_neg at hc
      obtain ⟨h1, h2, h3⟩ := hc
      rw [if_neg (by rintro (h | h | h); exacts [h1 h, h2 h, h3 h])]
      by_cases hs : sanitize_name n = ""
      · rw [if_pos hs]
        simp [h1, h2, h3, hs]
      · rw [if_neg hs]
        simp [h1, h2, h3, hs]

/-- Bumping a key adds exactly one to the total count. -/
theorem sumCounts_bump (m : List (String × Nat)) (k : String) :
    sumCounts (bump m k) = sumCounts m + 1 := by
  induction m with
  | nil => rfl
  | cons p rest ih =>
    obtain ⟨k', v⟩ := p
    unfold bump
    by_cases hk : k' = k
    · rw [if_pos hk]
      simp [sumCounts]
      omega
    · rw [if_neg hk]
      simp [sumCounts] at ih ⊢
      omega

/-- Conservation for pass 2 of the contributor resolver, with an arbitrary
starting state. -/
theorem sumCounts_foldl (known : List String) (lines : List String) (st : CState) :
    sumCounts ((lines.foldl (contribStep known) st).counts) =
      sumCounts st.counts + lines.countP wellFormedContrib := by
  induction lines generalizing st with
  | nil => simp
  | cons l ls ih =>
    rw [List.foldl_cons, ih, List.countP_cons]
    cases ha : acceptedContrib l with
    | none =>
      have hwf : wellFormedContrib l = false := by
        rw [← acceptedContrib_isSome_iff, ha]
        rfl
      rw [hwf]
      have hst : contribStep known st l = st := by
        unfold contribStep
        rw [ha]
      rw [hst]
      simp
    | some se =>
      obtain ⟨s, e⟩ := se
      have hwf : wellFormedContrib l = true := by
        rw [← acceptedContrib_isSome_iff, ha]
        rfl
      rw [hwf]
      have hst : (contribStep known st l).counts =
          bump st.counts (contribKey known s e) := by
        unfold contribStep
        rw [ha]
      rw [hst, sumCounts_bump, if_pos rfl]
      omega

/-- A line whose stripped form begins with the commit marker. -/
def isMarkerL (l : String) : Bool := "COMMIT|".data.isPrefixOf (pyStrip l).data

/-- A nonempty (after stripping) line; between markers these are file paths. -/
def isFileL (l : String) : Bool := pyStrip l != ""

/-- A marker line that the push loop accepts: three `|`-separated fields and
a non-empty, non-blocklisted committer name. -/
def acceptedMarker (l : String) : Bool :=
  isMarkerL l &&
    (match parseMarker (pyStrip l) with
     | none => false
     | some (name, _) =>
       !decide (name = "") && !decide (name ∈ EXCLUDED_CONTRIBUTORS))

/-- Number of push records the claim counts: accepted marker lines followed
by at least one file line before the next marker (or the end of input). -/
def countWFPush : List String → Nat
  | [] => 0
  | l :: rest =>
    (if acceptedMarker l &&
        (rest.takeWhile (fun x => !isMarkerL x)).any isFileL then 1 else 0) +
      countWFPush rest

/-- Whether the pending commit of the loop state will eventually be tallied:
it has a key, and either already has files or will collect one before the
next marker. -/
def pendPush (key? : Option String) (files : List String) (rest : List String) : Nat :=
  if key?.isSome = true ∧
      (files ≠ [] ∨ (rest.takeWhile (fun x => !isMarkerL x)).any isFileL = true)
  then 1 else 0

/-- The categorizer only ever returns the four category strings. -/
theorem categorize_cases (files : List String) :
    categorize_commit_files files = "ci" ∨ categorize_commit_files files = "docs" ∨
      categorize_commit_files files = "docs only" ∨
      categorize_commit_files files = "other" := by
  unfold categorize_commit_files
  dsimp only
  by_cases h1 : (files.foldl categorizeStep (false, false, false)).1 <;>
    by_cases h2 : (files.foldl categorizeStep (false, false, false)).2.2 <;>
      by_cases h3 : (files.foldl categorizeStep (false, false, false)).2.1 <;>
        simp [h1, h2, h3]

/-- Each categorized commit adds exactly one to a tally's total. -/
theorem sumTally_incCat (t : Tally) (cat : String)
    (h : cat = "ci" ∨ cat = "docs" ∨ cat = "docs only" ∨ cat = "other") :
    sumTally (incCat t cat) = sumTally t + 1 := by
  rcases h with rfl | rfl | rfl | rfl
  · rw [incCat, if_pos rfl]
    simp [sumTally]
    omega
  · rw [incCat, if_neg (by decide), if_neg (by decide), if_pos rfl]
    simp [sumTally]
    omega
  · rw [incCat, if_neg (by decide), if_pos rfl]
    simp [sumTally]
    omega
  · rw [incCat, if_neg (by decide), if_neg (by decide), if_neg (by decide), if_pos rfl]
    simp [sumTally]
    omega

/-- Tallying one commit adds exactly one to the grand total. -/
theorem sumTallies_bumpTally (m : List (String × Tally)) (k cat : String)
    (h : cat = "ci" ∨ cat = "docs" ∨ cat = "docs only" ∨ cat = "other") :
    sumTallies (bumpTally m k cat) = sumTallies m + 1 := by
  induction m with
  | nil =>
    simp [bumpTally, sumTallies, sumTally_incCat zeroTally cat h]
    rfl
  | cons p rest ih =>
    obtain ⟨k', t⟩ := p
    unfold bumpTally
    by_cases hk : k' = k
    · rw [if_pos hk]
      simp [sumTallies, sumTally_incCat t cat h]
      omega
    · rw [if_neg hk]
      simp [sumTallies] at ih ⊢
      omega

/-- `flush_commit` resets the pending fields and keeps only the tallies. -/
theorem flush_commit_eq (st : PushState) :
    flush_commit st = ⟨none, [], (flush_commit st).pushCounts⟩ := by
  unfold flush_commit
  cases st.currentKey with
  | none => rfl
  | some k =>
    dsimp only
    by_cases h : st.currentFiles ≠ []
    · rw [if_pos h]
    · rw [if_neg h]

/-- The grand total after a flush: one more exactly when the pending commit
has a key and at least one file. -/
theorem sumTallies_flush (key? : Option String) (files : List String)
    (pc : List (String × Tally)) :
    sumTallies (flush_commit ⟨key?, files, pc⟩).pushCounts =
      sumTallies pc + (if key?.isSome = true ∧ files ≠ [] then 1 else 0) := by
  cases key? with
  | none =>
    rw [flush_commit]
    simp
  | some k =>
    rw [flush_commit]
    dsimp only
    by_cases h : files ≠ []
    · rw [if_pos h, if_pos ⟨rfl, h⟩]
      exact sumTallies_bumpTally pc k _ (categorize_cases files)
    · rw [if_neg h, if_neg (by rintro ⟨-, hf⟩; exact h hf)]
      simp

/-- An empty (after stripping) line leaves the push state unchanged. -/
theorem pushStep_empty {line : String} (h : pyStrip line = "") (st : PushState) :
    pushStep st line = st := by
  unfold pushStep
  rw [if_pos h]

/-- A marker line with fewer than three fields flushes and leaves no key. -/
theorem pushStep_marker_none {line : String} (h1 : ¬ pyStrip line = "")
    (h2 : "COMMIT|".data.isPrefixOf (pyStrip line).data = true)
    (hpm : parseMarker (pyStrip line) = none) (st : PushState) :
    pushStep st line = flush_commit st := by
  unfold pushStep
  rw [if_neg h1, if_pos h2, hpm]

/-- A marker line with an empty or blocklisted committer name flushes and
leaves no key. -/
theorem pushStep_marker_bad {line name email : String} (h1 : ¬ pyStrip line = "")
    (h2 : "COMMIT|".data.isPrefixOf (pyStrip line).data = true)
    (hpm : parseMarker (pyStrip line) = some (name, email))
    (hbad : name = "" ∨ name ∈ EXCLUDED_CONTRIBUTORS) (st : PushState) :
    pushStep st line = { flush_commit st with currentKey := none } := by
  unfold pushStep
  rw [if_neg h1, if_pos h2, hpm]
  dsimp only
  rw [if_pos hbad]

/-- An accepted marker line flushes and installs the new commit key. -/
theorem pushStep_marker_good {line name email : String} (h1 : ¬ pyStrip line = "")
    (h2 : "COMMIT|".data.isPrefixOf (pyStrip line).data = true)
    (hpm : parseMarker (pyStrip line) = some (name, email))
    (hgood : ¬ (name = "" ∨ name ∈ EXCLUDED_CONTRIBUTORS)) (st : PushState) :
    pushStep st line =
      { flush_commit st with currentKey := some (pushKeyOf name email) } := by
  unfold pushStep
  rw [if_neg h1, if_pos h2, hpm]
  dsimp only
  rw [if_neg hgood]

/-- A file line is appended to the pending files when a key is present. -/
theorem pushStep_file {line : String} (h1 : ¬ pyStrip line = "")
    (h2 : "COMMIT|".data.isPrefixOf (pyStrip line).data = false) (st : PushState) :
    pushStep st line =
      (match st.currentKey with
       | some _ => { st with currentFiles := st.currentFiles ++ [pyStrip line] }
       | none => st) := by
  unfold pushStep
  rw [if_neg h1, if_neg (by rw [h2]; exact Bool.false_ne_true)]

/-- Flushing splits into a reset state and a total bumped exactly when the
pending commit has both a key and files. -/
theorem flush_split (key? : Option String) (files : List String)
    (pc : List (String × Tally)) :
    ∃ pc', flush_commit ⟨key?, files, pc⟩ = ⟨none, [], pc'⟩ ∧
      sumTallies pc' = sumTallies pc + (if key?.isSome = true ∧ files ≠ [] then 1 else 0) :=
  ⟨(flush_commit ⟨key?, files, pc⟩).pushCounts, flush_commit_eq _,
    sumTallies_flush key? files pc⟩

/-- Conservation invariant of the push loop: the final total equals the
already-tallied total, plus the pending commit when it will complete, plus
the number of well-formed commit groups in the remaining lines. -/
theorem sumTallies_push_invariant : ∀ (rest : List String) (key? : Option String)
    (files : List String) (pc : List (String × Tally)),
    sumTallies (flush_commit (rest.foldl pushStep ⟨key?, files, pc⟩)).pushCounts =
      sumTallies pc + pendPush key? files rest + countWFPush rest := by
  intro rest
  induction rest with
  | nil =>
    intro key? files pc
    rw [List.foldl_nil, sumTallies_flush, countWFPush]
    unfold pendPush
    simp
  | cons l rs ih =>
    intro key? files pc
    rw [List.foldl_cons]
    by_cases h1 : pyStrip l = ""
    · -- skipped blank line
      have hm : isMarkerL l = false := by
        unfold isMarkerL
        rw [h1]
        rfl
      have hf : isFileL l = false := by
        unfold isFileL
        rw [h1]
        rfl
      have hacc : acceptedMarker l = false := by
        unfold acceptedMarker
        rw [hm]
        rfl
      have hpend : pendPush key? files (l :: rs) = pendPush key? files rs := by
        unfold pendPush
        rw [List.takeWhile_cons]
        simp [hm, hf]
      rw [pushStep_empty h1, ih, countWFPush, hacc, hpend]
      simp
    · by_cases h2 : "COMMIT|".data.isPrefixOf (pyStrip l).data = true
      · -- marker line
        have hm : isMarkerL l = true := h2
        have hpend : pendPush key? files (l :: rs) =
            (if key?.isSome = true ∧ files ≠ [] then 1 else 0) := by
          unfold pendPush
          rw [List.takeWhile_cons]
          simp [hm]
        obtain ⟨pc', hfl, hsum⟩ := flush_split key? files pc
        cases hpm : parseMarker (pyStrip l) with
        | none =>
          have hacc : acceptedMarker l = false := by
            unfold acceptedMarker
            rw [hpm]
            simp
          rw [pushStep_marker_none h1 h2 hpm, hfl, ih, countWFPush, hacc, hpend]
          have h0 : pendPush none [] rs = 0 := by
            unfold pendPush
            simp
          rw [h0, hsum]
          simp
        | some ne =>
          obtain ⟨name, email⟩ := ne
          by_cases hbad : name = "" ∨ name ∈ EXCLUDED_CONTRIBUTORS
          · have hacc : acceptedMarker l = false := by
              unfold acceptedMarker
              rw [hpm]
              rcases hbad with h | h <;> simp [h]
            rw [pushStep_marker_bad h1 h2 hpm hbad, hfl]
            have hred : ({ (⟨none, [], pc'⟩ : PushState) with currentKey := none } :
                PushState) = ⟨none, [], pc'⟩ := rfl
            rw [hred, ih, countWFPush, hacc, hpend]
            have h0 : pendPush none [] rs = 0 := by
              unfold pendPush
              simp
            rw [h0, hsum]
            simp
          · have hacc : acceptedMarker l = true := by
              unfold acceptedMarker
              rw [hpm]
              push_neg at hbad
              simp [hm, hbad.1, hbad.2]
            rw [pushStep_marker_good h1 h2 hpm hbad, hfl]
            have hred : ({ (⟨none, [], pc'⟩ : PushState) with
                currentKey := some (pushKeyOf name email) } : PushState) =
                ⟨some (pushKeyOf name email), [], pc'⟩ := rfl
            rw [hred, ih, countWFPush, hacc, hpend]
            have h0 : pendPush (some (pushKeyOf name email)) [] rs =
                (if (rs.takeWhile (fun x => !isMarkerL x)).any isFileL = true
                 then 1 else 0) := by
              unfold pendPush
              simp
            rw [h0, hsum]
            by_cases hany : (rs.takeWhile (fun x => !isMarkerL x)).any isFileL = true <;>
              simp [hany] <;> omega
      · -- file line
        have hm : isMarkerL l = false := eq_false_of_ne_true h2
        have hf : isFileL l = true := by
          unfold isFileL
          simp [h1]
        have hacc : acceptedMarker l = false := by
          unfold acceptedMarker
          rw [hm]
          rfl
        have hpend : pendPush key? files (l :: rs) =
            (if key?.isSome = true then 1 else 0) := by
          unfold pendPush
          rw [List.takeWhile_cons]
          simp [hm, hf]
        rw [pushStep_file h1 hm]
        cases key? with
        | none =>
          dsimp only
          rw [ih, countWFPush, hacc, hpend]
          have h0 : pendPush none files rs = 0 := by
            unfold pendPush
            simp
          rw [h0]
          simp
        | some k =>
          dsimp only
          rw [ih, countWFPush, hacc, hpend]
          have h1' : pendPush (some k) (files ++ [pyStrip l]) rs = 1 := by
            unfold pendPush
            simp
          rw [h1']
          simp

/-- C4 counterexample: the line `"Alice|"` carries the delimiter, a non-empty
non-blocklisted display name — well-formed in the claim's sense — yet its
empty email makes pass 2 skip it, so no identity's tally is incremented. -/
theorem C4_counterexample_empty_email :
    claimWellFormedContrib "Alice|" = true ∧
      (["Alice|"].foldl (contribStep (contribPass1 ["Alice|"])) ⟨[], []⟩).counts = [] := by
  constructor <;> rfl

/-- C4 (amended): for every contributor line passing all admission checks
(delimiter, non-empty stripped name, non-empty stripped email, raw name not
blocklisted, name non-empty after sanitization) exactly one key's count is
bumped by one, and for every accepted commit marker followed by at least one
file line exactly one tally is bumped by one: the total of all commit counts
equals the number of such contributor lines, and the total of all push
tallies equals the number of such commit groups. -/
theorem C4_no_data_loss_amended :
    (∀ (known : List String) (lines : List String),
        sumCounts ((lines.foldl (contribStep known) ⟨[], []⟩).counts) =
          lines.countP wellFormedContrib) ∧
      (∀ lines : List String,
        sumTallies (runPush lines).pushCounts = countWFPush lines) := by
  constructor
  · intro known lines
    rw [sumCounts_foldl]
    simp [sumCounts]
  · intro lines
    have h := sumTallies_push_invariant lines none [] []
    unfold runPush
    rw [h]
    have h0 : pendPush none [] lines = 0 := by
      unfold pendPush
      simp
    rw [h0]
    simp [sumTallies]

/-- C8: order-independence of resolution keys and counts on the two-record
dataset `("Alice", "1+alice@users.noreply.github.com")` /
`("alice", "alice@company.example")`: processing the records in either order
yields the same identity keys with the same total commit count — both orders
resolve to the single key `"gh:alice"` with count 2 (pass 1 sees the whole
dataset before pass 2 assigns keys). -/
theorem C8_order_independence :
    ((["Alice|1+alice@users.noreply.github.com", "alice|alice@company.example"].foldl
        (contribStep (contribPass1
          ["Alice|1+alice@users.noreply.github.com", "alice|alice@company.example"]))
        ⟨[], []⟩).counts = [("gh:alice", 2)] ∧
      (["alice|alice@company.example", "Alice|1+alice@users.noreply.github.com"].foldl
        (contribStep (contribPass1
          ["alice|alice@company.example", "Alice|1+alice@users.noreply.github.com"]))
        ⟨[], []⟩).counts = [("gh:alice", 2)]) ∧
      get_contributors
          ["Alice|1+alice@users.noreply.github.com", "alice|alice@company.example"] =
        get_contributors
          ["alice|alice@company.example", "Alice|1+alice@users.noreply.github.com"] := by
  refine ⟨⟨rfl, rfl⟩, rfl⟩

/-- C10: blocklist exclusion compares the whitespace-stripped raw display
name, before brace sanitization, exactly and case-sensitively against the
blocklist — in both the contributor resolver and the push-tally pass.
`"GITHUB"` (case difference) and `"{GitHub}"` (braces around a listed name)
are not excluded and are counted in both passes, while the exact `"GitHub"`
is excluded in both. -/
theorem C10_blocklist_exact_raw_comparison :
    ("GITHUB" ∉ EXCLUDED_CONTRIBUTORS ∧
      "{GitHub}" ∉ EXCLUDED_CONTRIBUTORS ∧
      "GitHub" ∈ EXCLUDED_CONTRIBUTORS) ∧
      (get_contributors ["GITHUB|x@example.com"] = [("GITHUB", 1)] ∧
        get_contributors ["{GitHub}|x@example.com"] = [("GitHub", 1)] ∧
        get_contributors ["GitHub|x@example.com"] = []) ∧
      ((runPush ["COMMIT|GITHUB|x@example.com", "f.txt"]).pushCounts =
          [("github", ⟨0, 0, 0, 1⟩)] ∧
        (runPush ["COMMIT|{GitHub}|x@example.com", "f.txt"]).pushCounts =
          [("{github}", ⟨0, 0, 0, 1⟩)] ∧
        (runPush ["COMMIT|GitHub|x@example.com", "f.txt"]).pushCounts = []) := by
  refine ⟨⟨by decide, by decide, by decide⟩, ⟨rfl, rfl, rfl⟩, ⟨rfl, rfl, rfl⟩⟩

/-! Lemmas for the maintainer aggregator. -/

/-- Lowering a string is idempotent. -/
theorem lowerStr_idem (s : String) : lowerStr (lowerStr s) = lowerStr s := by
  unfold lowerStr
  simp [Function.comp_def, toLower_idem]

/-- A username extracted from an email is already lower case. -/
theorem extract_lower {e u : String} (h : extract_github_username e = some u) :
    lowerStr u = u := by
  unfold extract_github_username at h
  cases hx : extractL e.data with
  | none => rw [hx] at h; exact absurd h (by simp)
  | some cs =>
    rw [hx] at h
    simp only [Option.map_some', Option.some.injEq] at h
    subst h
    unfold extractL at hx
    cases hs : split1 '@' e.data with
    | none => rw [hs] at hx; exact absurd hx (by simp)
    | some pt =>
      obtain ⟨p, t⟩ := pt
      rw [hs] at hx
      dsimp only at hx
      by_cases hp : p = []
      · rw [if_pos hp] at hx
        exact absurd hx (by simp)
      · rw [if_neg hp] at hx
        by_cases hc : t.map Char.toLower = NOREPLY_DOMAIN ∨
            t.map Char.toLower = NOREPLY_DOMAIN ++ ['\n']
        · rw [if_pos hc] at hx
          have hcs : cs = (stripNumPlus p).map Char.toLower := (Option.some.inj hx).symm
          subst hcs
          unfold lowerStr
          simp [Function.comp_def, toLower_idem]
        · rw [if_neg hc] at hx
          exact absurd hx (by simp)

/-- The push-identity key is always lower case. -/
theorem pushKeyOf_lower (name email : String) :
    lowerStr (pushKeyOf name email) = pushKeyOf name email := by
  unfold pushKeyOf
  cases hx : extract_github_username email with
  | none => exact lowerStr_idem name
  | some u => exact extract_lower hx

/-- Tallying preserves lower-cased keys. -/
theorem bumpTally_keys {m : List (String × Tally)} {k cat : String}
    (hm : ∀ q ∈ m, lowerStr q.1 = q.1) (hk : lowerStr k = k) :
    ∀ q ∈ bumpTally m k cat, lowerStr q.1 = q.1 := by
  induction m with
  | nil =>
    intro q hq
    rw [bumpTally] at hq
    rcases List.mem_singleton.mp hq with rfl
    exact hk
  | cons p rest ih =>
    obtain ⟨k', t⟩ := p
    intro q hq
    rw [bumpTally] at hq
    by_cases hkk : k' = k
    · rw [if_pos hkk] at hq
      rcases List.mem_cons.mp hq with rfl | hq'
      · exact hm (k', t) (List.mem_cons_self ..)
      · exact hm q (List.mem_cons_of_mem _ hq')
    · rw [if_neg hkk] at hq
      rcases List.mem_cons.mp hq with rfl | hq'
      · exact hm (k', t) (List.mem_cons_self ..)
      · exact ih (fun r hr => hm r (List.mem_cons_of_mem _ hr)) q hq'

/-- Flushing preserves lower-cased keys. -/
theorem flush_keys {st : PushState}
    (hm : ∀ q ∈ st.pushCounts, lowerStr q.1 = q.1)
    (hk : ∀ k, st.currentKey = some k → lowerStr k = k) :
    ∀ q ∈ (flush_commit st).pushCounts, lowerStr q.1 = q.1 := by
  unfold flush_commit
  cases hck : st.currentKey with
  | none => exact hm
  | some k =>
    dsimp only
    by_cases hf : st.currentFiles ≠ []
    · rw [if_pos hf]
      exact bumpTally_keys hm (hk k hck)
    · rw [if_neg hf]
      exact hm

/-- One loop step preserves lower-cased keys in both state components. -/
theorem pushStep_keys (st : PushState) (line : String)
    (hm : ∀ q ∈ st.pushCounts, lowerStr q.1 = q.1)
    (hk : ∀ k, st.currentKey = some k → lowerStr k = k) :
    (∀ q ∈ (pushStep st line).pushCounts, lowerStr q.1 = q.1) ∧
      (∀ k, (pushStep st line).currentKey = some k → lowerStr k = k) := by
  by_cases h1 : pyStrip line = ""
  · rw [pushStep_empty h1]
    exact ⟨hm, hk⟩
  by_cases h2 : "COMMIT|".data.isPrefixOf (pyStrip line).data = true
  · have hfm : ∀ q ∈ (flush_commit st).pushCounts, lowerStr q.1 = q.1 :=
      flush_keys hm hk
    have hfk : (flush_commit st).currentKey = none := by
      rw [flush_commit_eq st]
    cases hpm : parseMarker (pyStrip line) with
    | none =>
      rw [pushStep_marker_none h1 h2 hpm]
      refine ⟨hfm, ?_⟩
      intro k hkk
      rw [hfk] at hkk
      exact absurd hkk (by simp)
    | some ne =>
      obtain ⟨n, e⟩ := ne
      by_cases hbad : n = "" ∨ n ∈ EXCLUDED_CONTRIBUTORS
      · rw [pushStep_marker_bad h1 h2 hpm hbad]
        exact ⟨hfm, fun k hkk => absurd hkk (by simp)⟩
      · rw [pushStep_marker_good h1 h2 hpm hbad]
        refine ⟨hfm, ?_⟩
        intro k hkk
        have : some (pushKeyOf n e) = some k := hkk
        rw [← Option.some.inj this]
        exact pushKeyOf_lower n e
  · rw [pushStep_file h1 (eq_false_of_ne_true h2)]
    cases hck : st.currentKey with
    | none => exact ⟨hm, hk⟩
    | some k =>
      dsimp only
      refine ⟨hm, ?_⟩
      intro k' hkk
      exact hk k' (hck ▸ hkk)

/-- All keys in the final push tally are lower case. -/
theorem runPush_keys (lines : List String) :
    ∀ q ∈ (runPush lines).pushCounts, lowerStr q.1 = q.1 := by
  unfold runPush
  have main : ∀ (ls : List String) (st : PushState),
      (∀ q ∈ st.pushCounts, lowerStr q.1 = q.1) →
      (∀ k, st.currentKey = some k → lowerStr k = k) →
      (∀ q ∈ (ls.foldl pushStep st).pushCounts, lowerStr q.1 = q.1) ∧
        (∀ k, (ls.foldl pushStep st).currentKey = some k → lowerStr k = k) := by
    intro ls
    induction ls with
    | nil => intro st hm hk; exact ⟨hm, hk⟩
    | cons l ls' ih =>
      intro st hm hk
      rw [List.foldl_cons]
      obtain ⟨hm', hk'⟩ := pushStep_keys st l hm hk
      exact ih _ hm' hk'
  obtain ⟨hm, hk⟩ := main lines ⟨none, [], []⟩ (by simp) (by simp)
  exact flush_keys hm hk

/-- Claim-side join: the first tally whose push-identity key matches the
username case-insensitively, or the zero tally. -/
def ciLookupTally (m : List (String × Tally)) (login : String) : Tally :=
  match m with
  | [] => zeroTally
  | (k, t) :: rest =>
    if lowerStr k = lowerStr login then t else ciLookupTally rest login

/-- On a tally map whose keys are lower case, the script's
`push_counts.get(login.lower(), zero)` is exactly the case-insensitive
match of the login against the keys. -/
theorem lookup_lower_eq_ciLookup (m : List (String × Tally)) (login : String)
    (hm : ∀ q ∈ m, lowerStr q.1 = q.1) :
    (lookupA m (lowerStr login)).getD zeroTally = ciLookupTally m login := by
  induction m with
  | nil => rfl
  | cons p rest ih =>
    obtain ⟨k, t⟩ := p
    rw [lookupA, ciLookupTally]
    have hkl : lowerStr k = k := hm (k, t) (List.mem_cons_self ..)
    by_cases hk : k = lowerStr login
    · rw [if_pos hk, if_pos (by rw [hkl, hk])]
      rfl
    · rw [if_neg hk, if_neg (by rw [hkl]; exact hk),
        ih (fun q hq => hm q (List.mem_cons_of_mem _ hq))]

/-- Distinct dict keys determine the stored value. -/
theorem eq_of_mem_nodup_keys {β : Type} {m : List (String × β)}
    (h : (m.map Prod.fst).Nodup) {k : String} {v w : β}
    (hv : (k, v) ∈ m) (hw : (k, w) ∈ m) : v = w := by
  induction m with
  | nil => exact absurd hv (by simp)
  | cons p rest ih =>
    obtain ⟨k', x⟩ := p
    rw [List.map_cons, List.nodup_cons] at h
    rcases List.mem_cons.mp hv with hv1 | hv2 <;> rcases List.mem_cons.mp hw with hw1 | hw2
    · rw [show v = x from congrArg Prod.snd hv1, show w = x from congrArg Prod.snd hw1]
    · exfalso
      have hkk : k = k' := congrArg Prod.fst hv1
      subst hkk
      exact h.1 (List.mem_map.mpr ⟨(k, w), hw2, rfl⟩)
    · exfalso
      have hkk : k = k' := congrArg Prod.fst hw1
      subst hkk
      exact h.1 (List.mem_map.mpr ⟨(k, v), hv2, rfl⟩)
    · exact ih h.2 hv2 hw2

instance : IsTotal (String × Nat × Tally) maintLE where
  total a b := by
    unfold maintLE
    rcases Nat.lt_trichotomy (totalActivity a) (totalActivity b) with h | h | h
    · exact Or.inr (Or.inl h)
    · rcases le_total (lowerStr a.1) (lowerStr b.1) with hs | hs
      · exact Or.inl (Or.inr ⟨h, hs⟩)
      · exact Or.inr (Or.inr ⟨h.symm, hs⟩)
    · exact Or.inl (Or.inl h)

instance : IsTrans (String × Nat × Tally) maintLE where
  trans a b c hab hbc := by
    unfold maintLE at hab hbc ⊢
    rcases hab with h1 | ⟨h1, h1'⟩ <;> rcases hbc with h2 | ⟨h2, h2'⟩
    · exact Or.inl (lt_trans h2 h1)
    · exact Or.inl (h2 ▸ h1)
    · exact Or.inl (h1 ▸ h2)
    · exact Or.inr ⟨h1.trans h2, le_trans h1' h2'⟩

/-- C6: Maintainer Aggregator threshold and join.  For every username in the
merge counts (a dict: keys distinct), a record is emitted iff its merge count
is at least `MIN_MERGES = 2`; the emitted record carries the push tally
looked up by case-insensitive match of the username against the
push-identity key (zero tally when none matches) — equivalent to the
script's `push_counts.get(login.lower())` because every push key is lower
case, which the last conjunct establishes for every run of the push loop;
and the output is sorted by merge count plus total pushes descending, then
username ascending case-insensitively. -/
theorem C6_maintainer_threshold_join_sort :
    (∀ (m : List (String × Nat)) (p : List (String × Tally)),
        (m.map Prod.fst).Nodup → (∀ q ∈ p, lowerStr q.1 = q.1) →
        (∀ u c, (u, c) ∈ m →
            ((MIN_MERGES ≤ c →
                (u, c, ciLookupTally p u) ∈ get_maintainers_build m p) ∧
              (c < MIN_MERGES →
                ∀ c' t, (u, c', t) ∉ get_maintainers_build m p))) ∧
          (∀ u c t, (u, c, t) ∈ get_maintainers_build m p →
            (u, c) ∈ m ∧ MIN_MERGES ≤ c ∧ t = ciLookupTally p u) ∧
          (get_maintainers_build m p).Pairwise (fun a b =>
            totalActivity b < totalActivity a ∨
              (totalActivity a = totalActivity b ∧ lowerStr a.1 ≤ lowerStr b.1))) ∧
      (∀ lines : List String, ∀ q ∈ (runPush lines).pushCounts, lowerStr q.1 = q.1) := by
  constructor
  · intro m p hnd hp
    have hmem : ∀ x, x ∈ get_maintainers_build m p ↔
        ∃ a ∈ m, (if MIN_MERGES ≤ a.2 then
          some (a.1, a.2, (lookupA p (lowerStr a.1)).getD zeroTally)
          else none) = some x := by
      intro x
      unfold get_maintainers_build
      rw [List.mem_insertionSort]
      exact List.mem_filterMap
    refine ⟨?_, ?_, ?_⟩
    · intro u c hm
      constructor
      · intro hth
        rw [hmem]
        refine ⟨(u, c), hm, ?_⟩
        rw [if_pos hth, lookup_lower_eq_ciLookup p u hp]
      · intro hlt c' t hcon
        rw [hmem] at hcon
        obtain ⟨a, ham, ha⟩ := hcon
        obtain ⟨a1, a2⟩ := a
        by_cases hth : MIN_MERGES ≤ a2
        · rw [if_pos hth] at ha
          simp only [Option.some.injEq, Prod.mk.injEq] at ha
          obtain ⟨rfl, -, -⟩ := ha
          have heq : a2 = c := eq_of_mem_nodup_keys hnd ham hm
          omega
        · rw [if_neg hth] at ha
          exact absurd ha (by simp)
    · intro u c t hmem'
      rw [hmem] at hmem'
      obtain ⟨a, ham, ha⟩ := hmem'
      obtain ⟨a1, a2⟩ := a
      by_cases hth : MIN_MERGES ≤ a2
      · rw [if_pos hth] at ha
        simp only [Option.some.injEq, Prod.mk.injEq] at ha
        obtain ⟨rfl, rfl, rfl⟩ := ha
        exact ⟨ham, hth, lookup_lower_eq_ciLookup p a1 hp⟩
      · rw [if_neg hth] at ha
        exact absurd ha (by simp)
    · unfold get_maintainers_build
      exact List.sorted_insertionSort maintLE _
  · exact runPush_keys

/-- Witness for C6: with merge counts `alice ↦ 2`, `Bob ↦ 1` and the push
stream giving `ALICE` one direct `other` push, `alice` (2 merges) is emitted
joined with that tally and `Bob` (1 merge) is excluded. -/
theorem C6_witness :
    ("alice", 2, ciLookupTally
        (runPush ["COMMIT|ALICE|x@example.com", "src/a.go"]).pushCounts "alice") ∈
      get_maintainers_build [("alice", 2), ("Bob", 1)]
        (runPush ["COMMIT|ALICE|x@example.com", "src/a.go"]).pushCounts ∧
      ∀ c' t, ("Bob", c', t) ∉
        get_maintainers_build [("alice", 2), ("Bob", 1)]
          (runPush ["COMMIT|ALICE|x@example.com", "src/a.go"]).pushCounts := by
  have h := (C6_maintainer_threshold_join_sort.1 [("alice", 2), ("Bob", 1)]
    (runPush ["COMMIT|ALICE|x@example.com", "src/a.go"]).pushCounts
    (by decide)
    (C6_maintainer_threshold_join_sort.2 ["COMMIT|ALICE|x@example.com", "src/a.go"])).1
  refine ⟨(h "alice" 2 (by decide)).1 (by decide), (h "Bob" 1 (by decide)).2 (by decide)⟩

/-! Lemmas for the canonical display-name preference (C7). -/

/-- The preference order is irreflexive. -/
theorem better_irrefl (s : String) : ¬ better s s := by
  unfold better
  cases h : isUpperFirst s <;> simp [h]

/-- The preference order is asymmetric. -/
theorem better_asymm {a b : String} (h : better a b) : ¬ better b a := by
  unfold better at h ⊢
  cases ha : isUpperFirst a <;> cases hb : isUpperFirst b <;>
    simp [ha, hb] at h ⊢ <;> omega

/-- If `v` does not beat `r` but beats `c`, then `r` beats `c`. -/
theorem better_shift_left {v r c : String} (h1 : ¬ better v r) (h2 : better v c) :
    better r c := by
  unfold better at h1 h2 ⊢
  cases hv : isUpperFirst v <;> cases hr : isUpperFirst r <;>
    cases hc : isUpperFirst c <;> simp [hv, hr, hc] at h1 h2 ⊢ <;> omega

/-- If `v` does not beat `c` and `r` beats `c`, then `r` beats `v`. -/
theorem better_shift_right {v r c : String} (h1 : ¬ better v c) (h2 : better r c) :
    better r v := by
  unfold better at h1 h2 ⊢
  cases hv : isUpperFirst v <;> cases hr : isUpperFirst r <;>
    cases hc : isUpperFirst c <;> simp [hv, hr, hc] at h1 h2 ⊢ <;> omega

/-- The sanitized name variants a key collects over a dataset, in order. -/
def contribVariants (known lines : List String) (k : String) : List String :=
  lines.filterMap (fun line =>
    match acceptedContrib line with
    | some (s, e) => if contribKey known s e = k then some s else none
    | none => none)

/-- The canonical-name fold: starting display name, then each new variant
replaces the stored one exactly when it is preferred. -/
def foldCanon : Option String → List String → Option String
  | o, [] => o
  | o, v :: rest =>
    match o with
    | none => foldCanon (some v) rest
    | some c => foldCanon (some (if better v c then v else c)) rest

/-- Lookup after appending a fresh entry. -/
theorem lookupA_append (m : List (String × String)) (k' v k : String) :
    lookupA (m ++ [(k', v)]) k =
      match lookupA m k with
      | some x => some x
      | none => if k' = k then some v else none := by
  induction m with
  | nil => rfl
  | cons p rest ih =>
    obtain ⟨k0, v0⟩ := p
    rw [List.cons_append, lookupA, lookupA]
    by_cases h : k0 = k
    · rw [if_pos h, if_pos h]
    · rw [if_neg h, if_neg h, ih]

/-- Overwriting an existing key stores the new value. -/
theorem lookupA_setA_self {m : List (String × String)} {k : String} {c : String}
    (h : lookupA m k = some c) (v : String) : lookupA (setA m k v) k = some v := by
  induction m with
  | nil => exact absurd h (by simp [lookupA])
  | cons p rest ih =>
    obtain ⟨k0, v0⟩ := p
    rw [lookupA] at h
    rw [setA]
    by_cases hk : k0 = k
    · rw [if_pos hk, lookupA, if_pos hk]
    · rw [if_neg hk, lookupA, if_neg hk]
      exact ih (by rw [if_neg hk] at h; exact h)

/-- Overwriting another key does not change this one. -/
theorem lookupA_setA_ne (m : List (String × String)) {k' k : String} (v : String)
    (h : k' ≠ k) : lookupA (setA m k' v) k = lookupA m k := by
  induction m with
  | nil => rfl
  | cons p rest ih =>
    obtain ⟨k0, v0⟩ := p
    rw [setA]
    by_cases hk : k0 = k'
    · rw [if_pos hk, lookupA, lookupA]
      subst hk
      rw [if_neg h, if_neg h]
    · rw [if_neg hk, lookupA, lookupA, ih]

/-- Lookup at the updated key after a canonical-name update. -/
theorem lookupA_updCanon_self (m : List (String × String)) (k s : String) :
    lookupA (updCanon m k s) k =
      some (match lookupA m k with
            | none => s
            | some c => if better s c then s else c) := by
  unfold updCanon
  cases h : lookupA m k with
  | none =>
    rw [lookupA_append, h, if_pos rfl]
  | some c =>
    dsimp only
    by_cases hb : better s c
    · rw [if_pos hb, lookupA_setA_self h s, if_pos hb]
    · rw [if_neg hb, h, if_neg hb]

/-- Lookup at a different key after a canonical-name update. -/
theorem lookupA_updCanon_ne (m : List (String × String)) {k' : String} (s : String)
    {k : String} (h : k' ≠ k) : lookupA (updCanon m k' s) k = lookupA m k := by
  unfold updCanon
  cases hl : lookupA m k' with
  | none =>
    rw [lookupA_append, if_neg h]
    cases lookupA m k <;> rfl
  | some c =>
    dsimp only
    by_cases hb : better s c
    · rw [if_pos hb, lookupA_setA_ne m s h]
    · rw [if_neg hb]

/-- The canonical entry of a key after pass 2 is the canonical-name fold over
the variant list of that key. -/
theorem canonical_foldl (known lines : List String) (k : String) :
    ∀ st : CState,
      lookupA ((lines.foldl (contribStep known) st).canonical) k =
        foldCanon (lookupA st.canonical k) (contribVariants known lines k) := by
  induction lines with
  | nil => intro st; rfl
  | cons l ls ih =>
    intro st
    rw [List.foldl_cons]
    unfold contribVariants
    rw [List.filterMap_cons]
    cases ha : acceptedContrib l with
    | none =>
      have hst : contribStep known st l = st := by
        unfold contribStep
        rw [ha]
      rw [hst]
      exact ih st
    | some se =>
      obtain ⟨s, e⟩ := se
      have hst : contribStep known st l =
          ⟨bump st.counts (contribKey known s e),
            updCanon st.canonical (contribKey known s e) s⟩ := by
        unfold contribStep
        rw [ha]
      rw [hst]
      dsimp only
      by_cases hk : contribKey known s e = k
      · rw [if_pos hk]
        rw [ih]
        subst hk
        rw [lookupA_updCanon_self]
        cases hl : lookupA st.canonical (contribKey known s e) <;> rfl
      · rw [if_neg hk]
        rw [ih]
        rw [lookupA_updCanon_ne _ s hk]
        rfl

/-- The canonical-name fold keeps the first variant that no later variant
beats: it is a maximum under the preference order, and it strictly beats
every earlier variant. -/
theorem foldCanon_first_max : ∀ (vs : List String) (c : String),
    ∃ r pre post, foldCanon (some c) vs = some r ∧ c :: vs = pre ++ r :: post ∧
      (∀ w ∈ c :: vs, ¬ better w r) ∧ (∀ w ∈ pre, better r w) := by
  intro vs
  induction vs with
  | nil =>
    intro c
    refine ⟨c, [], [], rfl, rfl, ?_, by simp⟩
    intro w hw
    rcases List.mem_singleton.mp hw with rfl
    exact better_irrefl w
  | cons v rest ih =>
    intro c
    by_cases hb : better v c
    · have hstep : foldCanon (some c) (v :: rest) = foldCanon (some v) rest := by
        rw [foldCanon, if_pos hb]
      obtain ⟨r, pre, post, h1, h2, h3, h4⟩ := ih v
      have hvr : ¬ better v r := h3 v (List.mem_cons_self ..)
      refine ⟨r, c :: pre, post, by rw [hstep]; exact h1, ?_, ?_, ?_⟩
      · rw [List.cons_append, ← h2]
      · intro w hw
        rcases List.mem_cons.mp hw with rfl | hw'
        · exact better_asymm (better_shift_left hvr hb)
        · exact h3 w hw'
      · intro w hw
        rcases List.mem_cons.mp hw with rfl | hw'
        · exact better_shift_left hvr hb
        · exact h4 w hw'
    · have hstep : foldCanon (some c) (v :: rest) = foldCanon (some c) rest := by
        rw [foldCanon, if_neg hb]
      obtain ⟨r, pre, post, h1, h2, h3, h4⟩ := ih c
      cases pre with
      | nil =>
        rw [List.nil_append] at h2
        have hrc : r = c := (List.cons.injEq .. ▸ h2).1.symm
        have hpost : post = rest := (List.cons.injEq .. ▸ h2).2.symm
        subst hrc
        subst hpost
        refine ⟨r, [], v :: post, by rw [hstep]; exact h1, rfl, ?_, by simp⟩
        intro w hw
        rcases List.mem_cons.mp hw with rfl | hw'
        · exact h3 w (List.mem_cons_self ..)
        · rcases List.mem_cons.mp hw' with rfl | hw''
          · exact hb
          · exact h3 w (List.mem_cons_of_mem _ hw'')
      | cons p0 pre' =>
        rw [List.cons_append] at h2
        have hp0 : p0 = c := (List.cons.injEq .. ▸ h2).1.symm
        have hrest : rest = pre' ++ r :: post := (List.cons.injEq .. ▸ h2).2
        subst hp0
        have hrc : better r p0 := h4 p0 (List.mem_cons_self ..)
        refine ⟨r, p0 :: v :: pre', post, by rw [hstep]; exact h1, ?_, ?_, ?_⟩
        · rw [List.cons_append, List.cons_append, ← hrest]
        · intro w hw
          rcases List.mem_cons.mp hw with rfl | hw'
          · exact h3 w (List.mem_cons_self ..)
          · rcases List.mem_cons.mp hw' with rfl | hw''
            · exact better_asymm (better_shift_right hb hrc)
            · exact h3 w (List.mem_cons_of_mem _ (hrest ▸ hw''))
        · intro w hw
          rcases List.mem_cons.mp hw with rfl | hw'
          · exact hrc
          · rcases List.mem_cons.mp hw' with rfl | hw''
            · exact better_shift_right hb hrc
            · exact h4 w (List.mem_cons_of_mem _ hw'')

/-- C7: canonical display-name preference.  For every identity key, after
processing any dataset, the stored display name is a maximum of all
sanitized variants seen for that key under the order "upper-case first
character beats lower, then strictly longer beats shorter", and it is the
earliest-seen such maximum: no variant beats it, and it beats every variant
seen before it. -/
theorem C7_canonical_name_preference (known lines : List String) (k : String)
    (hne : contribVariants known lines k ≠ []) :
    ∃ v pre post,
      lookupA ((lines.foldl (contribStep known) ⟨[], []⟩).canonical) k = some v ∧
      contribVariants known lines k = pre ++ v :: post ∧
      (∀ w ∈ contribVariants known lines k, ¬ better w v) ∧
      (∀ w ∈ pre, better v w) := by
  have hA := canonical_foldl known lines k ⟨[], []⟩
  cases hvs : contribVariants known lines k with
  | nil => exact absurd hvs hne
  | cons v0 vs =>
    rw [hvs] at hA
    obtain ⟨r, pre, post, h1, h2, h3, h4⟩ := foldCanon_first_max vs v0
    refine ⟨r, pre, post, ?_, h2, h3, h4⟩
    rw [hA]
    exact h1

/-- Witness for C7: the variants `["alice", "Alice"]` collected for key
`"gh:x"`; the stored name is `"Alice"` (upper case beats lower), preceded by
the beaten `"alice"`. -/
theorem C7_witness :
    ∃ v pre post,
      lookupA (((["alice|x@users.noreply.github.com",
          "Alice|x@users.noreply.github.com"].foldl
          (contribStep []) ⟨[], []⟩)).canonical) "gh:x" = some v ∧
      contribVariants [] ["alice|x@users.noreply.github.com",
          "Alice|x@users.noreply.github.com"] "gh:x" = pre ++ v :: post ∧
      (∀ w ∈ contribVariants [] ["alice|x@users.noreply.github.com",
          "Alice|x@users.noreply.github.com"] "gh:x", ¬ better w v) ∧
      (∀ w ∈ pre, better v w) :=
  C7_canonical_name_preference [] ["alice|x@users.noreply.github.com",
    "Alice|x@users.noreply.github.com"] "gh:x" (by decide)

/-! Lemmas for document splicing (C9). -/

/-- A recognized section heading of `update_credits`. -/
def recognizedB (l : String) : Bool :=
  l == "## Maintainers" || l == "## Contributors"

/-- Unrecognized lines pass through verbatim while not skipping. -/
theorem spliceLines_passthrough (ms cs : String) :
    ∀ (pre rest : List String), (∀ x ∈ pre, recognizedB x = false) →
      spliceLines ms cs false (pre ++ rest) = pre ++ spliceLines ms cs false rest := by
  intro pre
  induction pre with
  | nil => intro rest h; rfl
  | cons x xs ih =>
    intro rest h
    have hx := h x (List.mem_cons_self ..)
    rw [recognizedB] at hx
    simp only [Bool.or_eq_false_iff, beq_eq_false_iff_ne, ne_eq] at hx
    rw [List.cons_append, spliceLines, if_neg hx.1, if_neg hx.2]
    rw [show (false && nextSectionLine x) = false from rfl]
    rw [if_neg (by simp), if_neg (by simp)]
    rw [ih rest (fun y hy => h y (List.mem_cons_of_mem _ hy))]
    rfl

/-- Processing any lines up to a recognized heading emits some prefix and
continues in skipping mode after the heading. -/
theorem spliceLines_to_heading (ms cs : String) {h : String}
    (hrec : recognizedB h = true) :
    ∀ (A : List String) (skip : Bool) (R : List String),
      ∃ P, spliceLines ms cs skip (A ++ h :: R) = P ++ spliceLines ms cs true R := by
  intro A
  induction A with
  | nil =>
    intro skip R
    rw [List.nil_append]
    rw [recognizedB] at hrec
    simp only [Bool.or_eq_true, beq_iff_eq] at hrec
    rcases hrec with rfl | rfl
    · exact ⟨["## Maintainers", "", ms], by rw [spliceLines, if_pos rfl]; rfl⟩
    · refine ⟨["", "## Contributors", "", cs], ?_⟩
      rw [spliceLines, if_neg (by decide), if_pos rfl]
      rfl
  | cons x xs ih =>
    intro skip R
    rw [List.cons_append]
    by_cases h1 : x = "## Maintainers"
    · obtain ⟨P, hP⟩ := ih true R
      refine ⟨x :: "" :: ms :: P, ?_⟩
      rw [spliceLines, if_pos h1, hP]
      simp [h1]
    · by_cases h2 : x = "## Contributors"
      · obtain ⟨P, hP⟩ := ih true R
        refine ⟨"" :: x :: "" :: cs :: P, ?_⟩
        rw [spliceLines, if_neg h1, if_pos h2, hP]
        simp [h2]
      · by_cases h3 : skip && nextSectionLine x
        · obtain ⟨P, hP⟩ := ih false R
          refine ⟨"" :: x :: P, ?_⟩
          rw [spliceLines, if_neg h1, if_neg h2, if_pos h3, hP]
          rfl
        · by_cases h4 : skip
          · obtain ⟨P, hP⟩ := ih true R
            refine ⟨P, ?_⟩
            rw [spliceLines, if_neg h1, if_neg h2, if_neg h3, if_pos h4, hP]
          · obtain ⟨P, hP⟩ := ih false R
            refine ⟨x :: P, ?_⟩
            rw [spliceLines, if_neg h1, if_neg h2, if_neg h3, if_neg h4, hP]
            rfl

/-- In skipping mode, lines are dropped until the next section boundary,
which is re-emitted after a fresh blank line. -/
theorem spliceLines_skip_to_boundary (ms cs : String) {b : String}
    (hbrec : recognizedB b = false) (hbnext : nextSectionLine b = true) :
    ∀ (C : List String) (D : List String),
      (∀ x ∈ C, recognizedB x = false) → (∀ x ∈ C, nextSectionLine x = false) →
      spliceLines ms cs true (C ++ b :: D) = "" :: b :: spliceLines ms cs false D := by
  intro C
  induction C with
  | nil =>
    intro D _ _
    rw [List.nil_append]
    rw [recognizedB] at hbrec
    simp only [Bool.or_eq_false_iff, beq_eq_false_iff_ne, ne_eq] at hbrec
    rw [spliceLines, if_neg hbrec.1, if_neg hbrec.2,
      if_pos (by rw [hbnext]; rfl)]
  | cons x xs ih =>
    intro D hr hn
    have hx := hr x (List.mem_cons_self ..)
    rw [recognizedB] at hx
    simp only [Bool.or_eq_false_iff, beq_eq_false_iff_ne, ne_eq] at hx
    have hnx := hn x (List.mem_cons_self ..)
    rw [List.cons_append, spliceLines, if_neg hx.1, if_neg hx.2,
      if_neg (by rw [hnx]; simp), if_pos rfl]
    exact ih D (fun y hy => hr y (List.mem_cons_of_mem _ hy))
      (fun y hy => hn y (List.mem_cons_of_mem _ hy))

/-- C9: document splicing frame property.  For every maintainer and
contributor block and every input document (as a line list): (a) all lines
before the first recognized section heading appear unchanged, in place, at
the start of the output; (b) when a recognized heading is followed — after
the last recognized section — by a next heading or blockquote line, that
boundary line and everything after it appear unchanged as a suffix of the
output; (c) when neither section heading occurs in the document, the
document is left unmodified. -/
theorem C9_splice_frame (ms cs : String) (lines : List String) :
    (∃ suffix, spliceLines ms cs false lines =
        lines.takeWhile (fun l => !recognizedB l) ++ suffix) ∧
      (∀ A h C b D, lines = A ++ h :: (C ++ b :: D) →
          recognizedB h = true →
          (∀ x ∈ C ++ b :: D, recognizedB x = false) →
          (∀ x ∈ C, nextSectionLine x = false) →
          nextSectionLine b = true →
          ∃ P, spliceLines ms cs false lines = P ++ b :: D) ∧
      ((∀ x ∈ lines, recognizedB x = false) → spliceLines ms cs false lines = lines) := by
  refine ⟨?_, ?_, ?_⟩
  · refine ⟨spliceLines ms cs false (lines.dropWhile (fun l => !recognizedB l)), ?_⟩
    conv_lhs => rw [← List.takeWhile_append_dropWhile (p := fun l => !recognizedB l) (l := lines)]
    exact spliceLines_passthrough ms cs _ _ (fun x hx => by
      have := List.mem_takeWhile_imp hx
      simpa using this)
  · intro A h C b D hsplit hrec hallB hC hb
    subst hsplit
    obtain ⟨P1, hP1⟩ := spliceLines_to_heading ms cs hrec A false (C ++ b :: D)
    have hbrec : recognizedB b = false :=
      hallB b (List.mem_append_right _ (List.mem_cons_self ..))
    have hCrec : ∀ x ∈ C, recognizedB x = false := fun x hx =>
      hallB x (List.mem_append_left _ hx)
    have hDrec : ∀ x ∈ D, recognizedB x = false := fun x hx =>
      hallB x (List.mem_append_right _ (List.mem_cons_of_mem _ hx))
    rw [hP1, spliceLines_skip_to_boundary ms cs hbrec hb C D hCrec hC]
    have hD : spliceLines ms cs false D = D := by
      have := spliceLines_passthrough ms cs D [] hDrec
      have h0 : spliceLines ms cs false ([] : List String) = [] := rfl
      simpa [h0] using this
    rw [hD]
    exact ⟨P1 ++ [""], by simp⟩
  · intro hall
    have := spliceLines_passthrough ms cs lines [] hall
    have h0 : spliceLines ms cs false ([] : List String) = [] := rfl
    simpa [h0] using this

/-- Witness for C9 on a concrete document: the intro line survives as the
output's prefix, the `"## License"` boundary and the tail survive as a
suffix, and a document without the recognized headings is untouched. -/
theorem C9_witness :
    (∃ suffix, spliceLines "M" "C" false ["# T", "## Maintainers", "old",
        "## Contributors", "o2", "## License", "text"] =
      ["# T", "## Maintainers", "old", "## Contributors", "o2", "## License",
        "text"].takeWhile (fun l => !recognizedB l) ++ suffix) ∧
      (∃ P, spliceLines "M" "C" false ["# T", "## Maintainers", "old",
          "## Contributors", "o2", "## License", "text"] =
        P ++ "## License" :: ["text"]) ∧
      spliceLines "M" "C" false ["a", "b"] = ["a", "b"] := by
  refine ⟨(C9_splice_frame "M" "C" _).1, ?_, ?_⟩
  · exact (C9_splice_frame "M" "C" _).2.1 ["# T", "## Maintainers", "old"]
      "## Contributors" ["o2"] "## License" ["text"] rfl (by decide) (by decide)
      (by decide) (by decide)
  · exact (C9_splice_frame "M" "C" ["a", "b"]).2.2 (by decide)
